import Mathlib

/-
Verification of humble-cli's content-selection and resumable-download
subsystem.  Rust strings are modelled as lists of characters, `usize` and
`u64` as `Nat` with an explicit `% 2 ^ 64` at the one place where release-mode
wrapping is observable, and fallible operations as `Option`/`Except`.
-/

namespace HumbleCli

/-- Rust `&str`/`String` values are modelled as lists of characters. -/
abbrev Str := List Char

deriving instance DecidableEq for Except

/-- One more than `usize::MAX` on the 64-bit targets the tool ships for. -/
def USIZE_BOUND : Nat := 2 ^ 64

/-- Drops the optional leading `+` sign accepted by `usize::from_str`. -/
def stripLeadingPlus : Str → Str
  | '+' :: rest => rest
  | s => s

/-- Numeric value of a string of ASCII digits. -/
def digitsVal (digits : Str) : Nat :=
  digits.foldl (fun acc c => acc * 10 + (c.toNat - 48)) 0

/-- Model of Rust `str::parse::<usize>`: an optional leading `+` sign followed
by one or more ASCII digits, and the value must fit in `usize`.  (Rust rejects
the empty string, a lone sign, any non-digit character, and overflow; with
digit-only input the accumulated value is monotone, so the final value fits
iff no intermediate step overflows.) -/
def rustParseUsize (s : Str) : Option Nat :=
  let digits := stripLeadingPlus s
  if digits = [] then none
  else if digits.all Char.isDigit then
    if digitsVal digits < USIZE_BOUND then some (digitsVal digits) else none
  else none

/-- Model of `util::parse_usize_range` (src/util.rs:90-123).  `value.find('-')`
returns the position of the first dash (byte and character positions coincide
on the slice boundaries used here, since a dash is always a whole character);
the slices before and after it become the two sides.  An explicitly given side
is parsed with `usize::from_str`; an empty left side defaults to `1`, an empty
right side to `max_value`.  The Rust code returns
`(range_left..range_right + 1).collect()`; `range_right + 1` is a `usize`
addition, which in the shipped release build wraps modulo `2^64`, and a Rust
`Range` with `start >= end` is empty, matching `List.range'` with a truncated
`Nat` subtraction as the length. -/
def parse_usize_range (value : Str) (max_value : Nat) : Option (List Nat) :=
  match value.findIdx? (· == '-') with
  | none => (rustParseUsize value).map (fun v => [v])
  | some dash_idx =>
    let left := value.take dash_idx
    let right := value.drop (dash_idx + 1)
    match (if left ≠ [] then rustParseUsize left else some 1) with
    | none => none
    | some range_left =>
      match (if right ≠ [] then rustParseUsize right else some max_value) with
      | none => none
      | some range_right =>
        some (List.range' range_left ((range_right + 1) % USIZE_BOUND - range_left))

/-- The `format!("'{}'", v)` quoting applied to each offending token in
`union_usize_ranges`. -/
def quoteTok (v : Str) : Str := Char.ofNat 39 :: v ++ [Char.ofNat 39]

/-- Model of `util::union_usize_ranges` (src/util.rs:125-149).  Invalid tokens
are collected in input order; if any exist the call fails with the
comma-joined quoted token list.  Otherwise the per-token ranges are unioned
through a `HashSet` and returned sorted ascending; since the sorted,
deduplicated list of a finite set of naturals is unique, inserting into a hash
set and sorting is modelled extensionally as concatenate, sort, deduplicate. -/
def union_usize_ranges (values : List Str) (max_value : Nat) :
    Except Str (List Nat) :=
  let invalid_values := values.filter (fun v => (parse_usize_range v max_value).isNone)
  if invalid_values ≠ [] then
    Except.error (List.intercalate [',', ' '] (invalid_values.map quoteTok))
  else
    let parsed := values.foldl
      (fun acc v => acc ++ (parse_usize_range v max_value).getD []) []
    Except.ok ((parsed.insertionSort (· ≤ ·)).dedup)

example : parse_usize_range "5-10".data 50 = some [5, 6, 7, 8, 9, 10] := by decide
example : parse_usize_range "-5".data 50 = some [1, 2, 3, 4, 5] := by decide
example : parse_usize_range "45-".data 50 = some [45, 46, 47, 48, 49, 50] := by decide
example : parse_usize_range "abc".data 50 = none := by decide
example : parse_usize_range "".data 50 = none := by decide
example : parse_usize_range "42".data 50 = some [42] := by decide
example : parse_usize_range "abc-".data 50 = none := by decide
example : parse_usize_range "-abc".data 50 = none := by decide
example : union_usize_ranges ["8".data, "7-".data] 10 = Except.ok [7, 8, 9, 10] := by decide
example : union_usize_ranges ["-3".data, "7-".data] 10 = Except.ok [1, 2, 3, 7, 8, 9, 10] := by decide
example : union_usize_ranges ["a".data, "b".data] 10 =
    Except.error (quoteTok "a".data ++ ',' :: ' ' :: quoteTok "b".data) := by decide
example : union_usize_ranges ["0".data] 50 = Except.ok [0] := by decide
example : union_usize_ranges ["100".data] 50 = Except.ok [100] := by decide
example : parse_usize_range ("1-18446744073709551615".data) 50 = some [] := by decide

/-- Model of ASCII case folding as performed by `str::to_lowercase` on the
ASCII format strings and URL components this tool handles. -/
def listToLower (s : Str) : Str := s.map Char.toLower

/-- Model of `util::str_vectors_intersect` (src/util.rs:57-79): the lowercased
elements of `first` are collected into a set and the function reports whether
some lowercased element of `second` is in it; the early return on an empty
side is kept from the source (it is extensionally redundant). -/
def str_vectors_intersect (first second : List Str) : Bool :=
  if first.isEmpty || second.isEmpty then false
  else second.any (fun s => (first.map listToLower).contains (listToLower s))

/-- Model of `models::DownloadUrl`. -/
structure DownloadUrl where
  web : Str
  bittorrent : Str
deriving DecidableEq

/-- Model of `models::DownloadInfo`. -/
structure DownloadInfo where
  md5 : Str
  format : Str
  file_size : Nat
  url : DownloadUrl
deriving DecidableEq

/-- Model of `models::ProductDownload`. -/
structure ProductDownload where
  items : List DownloadInfo
deriving DecidableEq

/-- Model of `ProductDownload::total_size`. -/
def ProductDownload.total_size (d : ProductDownload) : Nat :=
  (d.items.map (fun e => e.file_size)).sum

/-- Model of `ProductDownload::formats_as_vec`. -/
def ProductDownload.formats_as_vec (d : ProductDownload) : List Str :=
  d.items.map (fun s => s.format)

/-- Model of `models::Product` (the fields the selection filter reads). -/
structure Product where
  machine_name : Str
  human_name : Str
  downloads : List ProductDownload
deriving DecidableEq

/-- Model of `Product::total_size`: the sum of all contained file sizes. -/
def Product.total_size (p : Product) : Nat :=
  (p.downloads.map ProductDownload.total_size).sum

/-- Model of `Product::formats_as_vec`: the formats of all files across the
product's download groups. -/
def Product.formats_as_vec (p : Product) : List Str :=
  (p.downloads.map ProductDownload.formats_as_vec).flatten

/-- Model of the product-selection pipeline inside `download_bundle`
(src/lib.rs:392-400): enumerate, keep products whose 1-based position is
selected (or all when no item numbers were given), then apply the strict
size cap (0 disables it), then the case-insensitive format intersection
(an empty format list disables it). -/
def selectProducts (products : List Product) (item_numbers : List Nat)
    (max_size : Nat) (formats : List Str) : List Product :=
  ((((products.enum.filter
      (fun ip => item_numbers.isEmpty || item_numbers.contains (ip.1 + 1))).map
        Prod.snd).filter
      (fun p => max_size == 0 || decide (p.total_size < max_size))).filter
      (fun p => formats.isEmpty || str_vectors_intersect p.formats_as_vec formats))

/-- The conjunction of the three per-product tests, written as one predicate
over the 0-based position and the product; this is the claim-side ("spec")
formulation the pipeline is compared against. -/
def keepProduct (item_numbers : List Nat) (max_size : Nat) (formats : List Str)
    (i : Nat) (p : Product) : Bool :=
  ((item_numbers.isEmpty || item_numbers.contains (i + 1)) &&
    (max_size == 0 || decide (p.total_size < max_size))) &&
    (formats.isEmpty || str_vectors_intersect p.formats_as_vec formats)

/-- Model of the per-file format check in `download_bundle`
(src/lib.rs:435): a file is skipped when the selection format list is
non-empty and does not literally contain the lowercased file format
(`!formats.is_empty() && !formats.contains(&dl_info.format.to_lowercase())`). -/
def file_format_skipped (formats : List Str) (file_format : Str) : Bool :=
  !formats.isEmpty && !(formats.contains (listToLower file_format))

/-- Model of the transport-error flags `reqwest::Error::is_connect` /
`is_timeout`; `code` distinguishes otherwise identical errors. -/
structure NetError where
  is_connect : Bool
  is_timeout : Bool
  code : Nat
deriving DecidableEq

/-- Model of `download::DownloadError`; `IOError` models the `IO` variant. -/
inductive DownloadError where
  | Network (e : NetError)
  | IOError (code : Nat)
  | Generic (msg : Str)
deriving DecidableEq

/-- The retry guard of `download_file` (src/download.rs:44-53): only a
`Network` error whose source is a connect or timeout failure is retried. -/
def retryable : Except DownloadError Unit → Bool
  | Except.error (DownloadError.Network e) => e.is_connect || e.is_timeout
  | _ => false

/-- Model of the retry loop of `download_file` (src/download.rs:27-55) over an
abstract sequence of attempt outcomes (`attempt n` is the result of the n-th
call to `_download_file`).  The mutable counter starts at 3 and is decremented
before the check `retries < 0`, so the value of the counter entering an
iteration is the second argument: at `0` the decrement makes it negative and
the result is returned unconditionally; otherwise a retryable error loops and
anything else is returned.  The second component counts attempts performed. -/
def download_file_go (attempt : Nat → Except DownloadError Unit) (n : Nat) :
    Nat → Except DownloadError Unit × Nat
  | 0 => (attempt n, n + 1)
  | retries + 1 =>
    if retryable (attempt n) then download_file_go attempt (n + 1) retries
    else (attempt n, n + 1)

/-- Model of `download_file`: run the retry loop with a budget of 3 retries. -/
def download_file (attempt : Nat → Except DownloadError Unit) :
    Except DownloadError Unit :=
  (download_file_go attempt 0 3).1

/-- Number of `_download_file` attempts `download_file` performs. -/
def download_file_attempts (attempt : Nat → Except DownloadError Unit) : Nat :=
  (download_file_go attempt 0 3).2

/-- The world one `_download_file` attempt runs against: the destination file
(existence and current size), the response to the content-length probe
(transport error, missing header, or a length), and the body chunk stream of
the ranged request. -/
structure RemoteFile where
  url : Str
  fileExists : Bool
  fileSize : Nat
  headResponse : Except NetError (Option Nat)
  chunks : List (Except NetError (List Nat))
deriving DecidableEq

/-- Everything one `_download_file` attempt did: the offsets of ranged
(`Range` header) fetches it issued, the bytes it appended to the file, and
its result. -/
structure DownloadTrace where
  rangedRequests : List Nat
  bytesWritten : List Nat
  result : Except DownloadError Unit
deriving DecidableEq

/-- Model of `open_file_for_write` (src/download.rs:96-110): an existing file
is opened for append and its size becomes the starting offset; otherwise the
file is created and the offset is 0.  The handle itself is abstracted away. -/
def open_file_for_write (fileExists : Bool) (fileSize : Nat) : Nat :=
  if fileExists then fileSize else 0

/-- Model of the chunk loop of `_download_file` (src/download.rs:83-89): each
chunk is appended to the file and `downloaded` advances by the chunk length,
capped at `total_size` (the cap only feeds the progress bar); a stream error
aborts with a `Network` error, keeping the bytes already written. -/
def write_chunks : List (Except NetError (List Nat)) → Nat → Nat →
    List Nat × Except DownloadError Unit
  | [], _, _ => ([], Except.ok ())
  | Except.error e :: _, _, _ => ([], Except.error (DownloadError.Network e))
  | Except.ok chunk :: rest, downloaded, total_size =>
    let r := write_chunks rest (min (downloaded + chunk.length) total_size) total_size
    (chunk ++ r.1, r.2)

/-- Model of `_download_file` (src/download.rs:57-94): probe the destination
file, query the remote size (a missing content-length header is a `Generic`
error naming the URL), short-circuit with success when the local size already
covers the remote size, and otherwise issue one ranged fetch starting at
`downloaded` and stream its chunks into the file. -/
def _download_file (env : RemoteFile) : DownloadTrace :=
  let downloaded := open_file_for_write env.fileExists env.fileSize
  match env.headResponse with
  | Except.error e => ⟨[], [], Except.error (DownloadError.Network e)⟩
  | Except.ok none =>
    ⟨[], [], Except.error (DownloadError.Generic
      ("Failed to get content length from ".data ++ quoteTok env.url))⟩
  | Except.ok (some total_size) =>
    if downloaded ≥ total_size then ⟨[], [], Except.ok ()⟩
    else
      let s := write_chunks env.chunks downloaded total_size
      ⟨[downloaded], s.1, s.2⟩

/-- Model of Rust `str::split(',')` (a split on a one-character pattern):
always yields at least one piece, the empty string splitting to one empty
piece. -/
def splitOnChar (sep : Char) : Str → List Str
  | [] => [[]]
  | c :: rest =>
    if c = sep then [] :: splitOnChar sep rest
    else
      match splitOnChar sep rest with
      | [] => [[c]]
      | s :: ss => (c :: s) :: ss

/-- What a `download_bundles` run did: the bundle keys passed to
`download_bundle` in order, the `(bundle_name, error)` pairs collected into
`err_vec` in order, and whether the run panicked (a Rust index-out-of-bounds
abort, after which nothing further happens and no `Ok` is returned). -/
structure BatchTrace where
  attempted : List Str
  reported : List (Str × Nat)
  panicked : Bool
deriving DecidableEq

/-- Model of the loop of `download_bundles` (src/lib.rs:324-358) over the
lines of the input file; `outcome i` abstracts the result of the i-th
`download_bundle` call.  Each line is split on `','`; `parts[0]` is the
bundle key.  The source computes the bundle name as
`if !parts.is_empty() { parts[1] } else { parts[0] }`; since `split` always
yields at least one part the condition is always true, so `parts[1]` is read
unconditionally and a line without a comma panics (modelled by `parts.get? 1
= none`).  A failed download is appended to the error list and the loop
continues with the next line. -/
def download_bundles_go (outcome : Nat → Except Nat Unit) :
    List Str → Nat → BatchTrace
  | [], _ => ⟨[], [], false⟩
  | line :: rest, i =>
    let parts := splitOnChar ',' line
    let bundle_key := parts.headD []
    match (if parts ≠ [] then parts.get? 1 else parts.get? 0) with
    | none => ⟨[], [], true⟩
    | some bundle_name =>
      let t := download_bundles_go outcome rest (i + 1)
      match outcome i with
      | Except.ok _ => ⟨bundle_key :: t.attempted, t.reported, t.panicked⟩
      | Except.error e =>
        ⟨bundle_key :: t.attempted, (bundle_name, e) :: t.reported, t.panicked⟩

/-- Model of `download_bundles` (src/lib.rs:324-358) given the lines of the
input file: process every line, then report the collected errors and return
success (unless a malformed line panicked first). -/
def download_bundles (lines : List Str) (outcome : Nat → Except Nat Unit) :
    BatchTrace :=
  download_bundles_go outcome lines 0

example :
    download_bundles ["k1,n1".data, "somekey".data, "k3,n3".data]
      (fun _ => Except.ok ()) = ⟨["k1".data], [], true⟩ := by decide
example :
    download_bundles ["k1,n1".data, "k2,n2".data] (fun i => Except.error i) =
      ⟨["k1".data, "k2".data], [("n1".data, 0), ("n2".data, 1)], false⟩ := by decide

/-- The parts of a parsed URL that `extract_filename_from_url` observes.
`pathSegments` is `none` for a cannot-be-a-base URL (such as `mailto:x`),
mirroring `Url::path_segments` returning `None`; otherwise it is the path
split on `/` (never empty: an empty path has the single segment `""`). -/
structure Url where
  scheme : Str
  host : Str
  pathSegments : Option (List Str)
  query : Option Str
deriving DecidableEq

/-- First character a URL scheme may start with. -/
def isSchemeStartChar (c : Char) : Bool := c.isAlpha

/-- Characters a URL scheme may contain. -/
def isSchemeChar (c : Char) : Bool :=
  c.isAlphanum || c == '+' || c == '-' || c == '.'

/-- Holds of characters before the end of a URL authority. -/
def notAuthEndChar (c : Char) : Bool := !(c == '/' || c == '?' || c == '#')

/-- Holds of characters before the end of a URL path. -/
def notPathEndChar (c : Char) : Bool := !(c == '?' || c == '#')

/-- The authority (host) part after `scheme://`. -/
def urlAuthorityOf (afterSlashes : Str) : Str :=
  afterSlashes.takeWhile notAuthEndChar

/-- The path after `scheme://authority`, without its leading slash and with
the query and fragment cut off; an absent path normalizes to `/`, i.e. to the
empty remainder here. -/
def urlPathOf (afterSlashes : Str) : Str :=
  let rawPath := (afterSlashes.dropWhile notAuthEndChar).takeWhile notPathEndChar
  if rawPath.headD ' ' = '/' then rawPath.tail else []

/-- The query string, when a `?` follows the path. -/
def urlQueryOf (afterSlashes : Str) : Option Str :=
  match (afterSlashes.dropWhile notAuthEndChar).dropWhile notPathEndChar with
  | '?' :: qs => some (qs.takeWhile (fun c => !(c == '#')))
  | _ => none

/-- Model of `reqwest::Url::parse` (the WHATWG `url` crate) restricted to the
hierarchical `scheme://host/path?query#fragment` shape that the download URLs
this tool extracts filenames from have: the scheme must be alphanumeric
(starting with a letter) and followed by `:`; with `//` an authority up to the
next `/`, `?` or `#` follows and must be non-empty; the path runs to the
first `?` or `#` and its segments are the pieces after the leading slash
(an absent path normalizes to `/`); a scheme not followed by `//` yields a
cannot-be-a-base URL whose `path_segments` is `None`.  A string without a
valid scheme fails to parse.  Normalizations that cannot affect the presence
or emptiness of a trailing ASCII segment (percent-encoding, dot-segment
removal, empty-authority forms such as `file:///`) are not modelled. -/
def parseUrl (s : Str) : Option Url :=
  let scheme := s.takeWhile (fun c => !(c == ':'))
  let rest := s.dropWhile (fun c => !(c == ':'))
  if rest = [] then none
  else if scheme = [] then none
  else if !(isSchemeStartChar (scheme.headD 'a') && scheme.all isSchemeChar) then none
  else if rest.tail.take 2 = ['/', '/'] then
    let afterSlashes := rest.tail.drop 2
    if urlAuthorityOf afterSlashes = [] then none
    else some ⟨scheme, urlAuthorityOf afterSlashes,
      some (splitOnChar '/' (urlPathOf afterSlashes)),
      urlQueryOf afterSlashes⟩
  else some ⟨scheme, [], none, none⟩

/-- Model of `util::extract_filename_from_url` (src/util.rs:43-55): parse the
URL, take the last path segment (the Rust code indexes
`path_segments[len - 1]`, which cannot panic since a split is never empty,
so the `getLast? = none` branch is unreachable), and return it unless it is
empty. -/
def extract_filename_from_url (url : Str) : Option Str :=
  match parseUrl url with
  | none => none
  | some u =>
    match u.pathSegments with
    | none => none
    | some path_segments =>
      match path_segments.getLast? with
      | none => none
      | some [] => none
      | some segment => some segment

example :
    extract_filename_from_url
      "https://dl.humble.com/grokkingalgorithms.mobi?gamekey=xxxxxx&ttl=1655031034&t=yyyyyyyyyy".data
      = some "grokkingalgorithms.mobi".data := by decide
example : extract_filename_from_url "https://www.google.com/".data = none := by decide
example : extract_filename_from_url "https://example.com".data = none := by decide
example : extract_filename_from_url "not a url".data = none := by decide
example : extract_filename_from_url "mailto:someone".data = none := by decide
example : extract_filename_from_url "https://a.b/x//".data = none := by decide

/-- Claim-side description of a token the range resolver rejects, phrased on
the raw string: the token has a dash and a non-empty side of the first dash
fails to parse as an integer, or the token has no dash and itself fails to
parse.  (Stated with `takeWhile`/`dropWhile` rather than the index arithmetic
of the implementation.) -/
def tokenParseFail (v : Str) : Bool :=
  if ('-' : Char) ∈ v then
    (!(v.takeWhile (fun c => !(c == '-'))).isEmpty &&
      (rustParseUsize (v.takeWhile (fun c => !(c == '-')))).isNone)
    || (!((v.dropWhile (fun c => !(c == '-'))).tail).isEmpty &&
      (rustParseUsize ((v.dropWhile (fun c => !(c == '-'))).tail)).isNone)
  else (rustParseUsize v).isNone

/-- Holds when a parsed bound (if present) lies within `[1, max_value]`. -/
def boundOkB (o : Option Nat) (max_value : Nat) : Bool :=
  match o with
  | none => true
  | some n => decide (1 ≤ n) && decide (n ≤ max_value)

/-- Holds when every explicitly written bound of the token lies within
`[1, max_value]` (sides left empty carry no explicit bound). -/
def tokenBoundsOk (v : Str) (max_value : Nat) : Bool :=
  match v.findIdx? (· == '-') with
  | none => boundOkB (rustParseUsize v) max_value
  | some dash_idx =>
    boundOkB (rustParseUsize (v.take dash_idx)) max_value &&
      boundOkB (rustParseUsize (v.drop (dash_idx + 1))) max_value

/-- Convenience constructor for a one-file product used in witnesses. -/
def mkProduct (name : Str) (size : Nat) (fmt : Str) : Product :=
  ⟨name, name, [⟨[⟨[], fmt, size, ⟨[], []⟩⟩]⟩]⟩

/-! ## Helper lemmas -/

lemma rustParseUsize_ne_nil {s : Str} {n : Nat}
    (h : rustParseUsize s = some n) : s ≠ [] := by
  rintro rfl
  simp [rustParseUsize, stripLeadingPlus] at h

lemma rustParseUsize_lt {s : Str} {n : Nat}
    (h : rustParseUsize s = some n) : n < USIZE_BOUND := by
  by_cases h1 : stripLeadingPlus s = []
  · simp [rustParseUsize, h1] at h
  · by_cases h2 : (stripLeadingPlus s).all Char.isDigit
    · by_cases h3 : digitsVal (stripLeadingPlus s) < USIZE_BOUND
      · simp [rustParseUsize, h1, h2, h3] at h
        exact h ▸ h3
      · simp [rustParseUsize, h1, h2, h3] at h
    · simp [rustParseUsize, h1, h2] at h

lemma findIdx?_dash_append (a b : Str) (i : Nat) (ha : ('-' : Char) ∉ a) :
    List.findIdx? (· == '-') (a ++ '-' :: b) i = some (i + a.length) := by
  induction a generalizing i with
  | nil => simp [List.findIdx?_cons]
  | cons c cs ih =>
    simp only [List.mem_cons, not_or] at ha
    have hc : (c == '-') = false := by
      exact beq_eq_false_iff_ne.mpr fun h => ha.1 h.symm
    rw [List.cons_append, List.findIdx?_cons, hc]
    simp only [if_false, Bool.false_eq_true]
    rw [ih (i + 1) ha.2]
    congr 1
    simp [List.length_cons]
    omega

lemma findIdx?_eq_none_of_not_mem (v : Str) (i : Nat) (hv : ('-' : Char) ∉ v) :
    List.findIdx? (· == '-') v i = none := by
  induction v generalizing i with
  | nil => simp [List.findIdx?_cons]
  | cons c cs ih =>
    simp only [List.mem_cons, not_or] at hv
    have hc : (c == '-') = false := beq_eq_false_iff_ne.mpr fun h => hv.1 h.symm
    rw [List.findIdx?_cons, hc]
    simp only [if_false, Bool.false_eq_true]
    exact ih (i + 1) hv.2

lemma drop_length_succ_append (a b : Str) (c : Char) :
    (a ++ c :: b).drop (a.length + 1) = b := by
  have h := List.drop_left (a ++ [c]) b
  rw [List.length_append, List.length_singleton, List.append_assoc,
    List.singleton_append] at h
  exact h

lemma parse_bounded_token (a b : Str) (A B : Nat) (max_value : Nat)
    (ha : ('-' : Char) ∉ a) (hA : rustParseUsize a = some A)
    (hB : rustParseUsize b = some B) :
    parse_usize_range (a ++ '-' :: b) max_value =
      some (List.range' A ((B + 1) % USIZE_BOUND - A)) := by
  have hfind := findIdx?_dash_append a b 0 ha
  rw [Nat.zero_add] at hfind
  have hane : a ≠ [] := rustParseUsize_ne_nil hA
  have hbne : b ≠ [] := rustParseUsize_ne_nil hB
  unfold parse_usize_range
  rw [hfind]
  simp only [List.take_left, drop_length_succ_append, hane, hbne, ne_eq,
    not_false_eq_true, if_true, hA, hB]

/-! ## C1: completion short-circuit of `_download_file` -/

/-- C1: when the destination file already exists with local size `downloaded`
at least the remote content length `total_size`, `_download_file` returns
success without issuing the ranged fetch and without writing any bytes. -/
theorem download_noop_when_complete (env : RemoteFile) (total_size : Nat)
    (hex : env.fileExists = true)
    (hhead : env.headResponse = Except.ok (some total_size))
    (hge : env.fileSize ≥ total_size) :
    _download_file env = ⟨[], [], Except.ok ()⟩ := by
  simp [_download_file, open_file_for_write, hex, hhead, hge]

/-- Witness for C1 at a concrete environment: a 100-byte local file, a remote
of 80 bytes, and a pending chunk that is never fetched. -/
theorem download_noop_when_complete_witness :
    _download_file ⟨"u".data, true, 100, Except.ok (some 80),
      [Except.ok [1, 2, 3]]⟩ = ⟨[], [], Except.ok ()⟩ :=
  download_noop_when_complete _ 80 rfl rfl (by decide)

/-! ## C2: retry policy of `download_file` -/

lemma download_file_go_zero (attempt : Nat → Except DownloadError Unit) (n : Nat) :
    download_file_go attempt n 0 = (attempt n, n + 1) := rfl

lemma download_file_go_succ (attempt : Nat → Except DownloadError Unit) (n r : Nat) :
    download_file_go attempt n (r + 1) =
      if retryable (attempt n) then download_file_go attempt (n + 1) r
      else (attempt n, n + 1) := rfl

/-- C2: `download_file` retries only connect/timeout `Network` errors; with
fewer than 4 attempts, the first outcome that is a success or a non-retryable
error is returned immediately after exactly that many attempts; when the
first four outcomes are all retryable the fourth (the last error) is returned
unchanged after 4 attempts (3 retries). -/
theorem download_file_retry_spec (attempt : Nat → Except DownloadError Unit) :
    (∀ r, retryable r = true ↔
      ∃ e, r = Except.error (DownloadError.Network e) ∧
        (e.is_connect = true ∨ e.is_timeout = true))
    ∧ (∀ k, k ≤ 3 → (∀ j, j < k → retryable (attempt j) = true) →
        retryable (attempt k) = false →
        download_file attempt = attempt k ∧
          download_file_attempts attempt = k + 1)
    ∧ ((∀ j, j ≤ 3 → retryable (attempt j) = true) →
        download_file attempt = attempt 3 ∧
          download_file_attempts attempt = 4) := by
  refine ⟨?_, ?_, ?_⟩
  · intro r
    match r with
    | Except.ok () => simp [retryable]
    | Except.error (DownloadError.Network e) =>
      simp [retryable, Bool.or_eq_true]
    | Except.error (DownloadError.IOError c) => simp [retryable]
    | Except.error (DownloadError.Generic m) => simp [retryable]
  · intro k hk hprev hstop
    interval_cases k
    · constructor <;>
        simp [download_file, download_file_attempts, download_file_go_succ,
          download_file_go_zero, hstop]
    · have h0 := hprev 0 (by omega)
      constructor <;>
        simp [download_file, download_file_attempts, download_file_go_succ,
          download_file_go_zero, h0, hstop]
    · have h0 := hprev 0 (by omega)
      have h1 := hprev 1 (by omega)
      constructor <;>
        simp [download_file, download_file_attempts, download_file_go_succ,
          download_file_go_zero, h0, h1, hstop]
    · have h0 := hprev 0 (by omega)
      have h1 := hprev 1 (by omega)
      have h2 := hprev 2 (by omega)
      constructor <;>
        simp [download_file, download_file_attempts, download_file_go_succ,
          download_file_go_zero, h0, h1, h2]
  · intro hall
    have h0 := hall 0 (by omega)
    have h1 := hall 1 (by omega)
    have h2 := hall 2 (by omega)
    constructor <;>
      simp [download_file, download_file_attempts, download_file_go_succ,
        download_file_go_zero, h0, h1, h2]

/-- Witness for C2: a connect error on the first attempt followed by success
gives overall success in 2 attempts; four consecutive timeout errors give the
fourth (last) error after 4 attempts. -/
theorem download_file_retry_spec_witness :
    (download_file (fun n => if n = 0
        then Except.error (DownloadError.Network ⟨true, false, 0⟩)
        else Except.ok ()) = Except.ok () ∧
      download_file_attempts (fun n => if n = 0
        then Except.error (DownloadError.Network ⟨true, false, 0⟩)
        else Except.ok ()) = 2)
    ∧ (download_file (fun n => Except.error (DownloadError.Network ⟨false, true, n⟩)) =
        Except.error (DownloadError.Network ⟨false, true, 3⟩) ∧
      download_file_attempts
        (fun n => Except.error (DownloadError.Network ⟨false, true, n⟩)) = 4) := by
  constructor
  · exact (download_file_retry_spec _).2.1 1 (by omega) (by decide) (by decide)
  · exact (download_file_retry_spec _).2.2 (by intro j hj; simp [retryable])

/-! ## C10: inverted bounded ranges are accepted and empty -/

/-- C10: a bounded token `A-B` whose two sides parse with `A > B` is not an
error: it parses to the empty index list, and resolving only such a token
yields the empty result set. -/
theorem inverted_range_empty (a b : Str) (A B max_value : Nat)
    (ha : ('-' : Char) ∉ a) (hA : rustParseUsize a = some A)
    (hB : rustParseUsize b = some B) (hAB : B < A) :
    parse_usize_range (a ++ '-' :: b) max_value = some [] ∧
    union_usize_ranges [a ++ '-' :: b] max_value = Except.ok [] := by
  have hparse : parse_usize_range (a ++ '-' :: b) max_value = some [] := by
    rw [parse_bounded_token a b A B max_value ha hA hB]
    have hzero : (B + 1) % USIZE_BOUND - A = 0 :=
      Nat.sub_eq_zero_of_le ((Nat.mod_le _ _).trans hAB)
    rw [hzero]
    rfl
  refine ⟨hparse, ?_⟩
  simp [union_usize_ranges, hparse, List.insertionSort, List.dedup]

/-- Witness for C10 at the token `5-3`. -/
theorem inverted_range_empty_witness :
    parse_usize_range "5-3".data 50 = some [] ∧
    union_usize_ranges ["5-3".data] 50 = Except.ok [] := by
  exact inverted_range_empty "5".data "3".data 5 3 50
    (by decide) (by decide) (by decide) (by decide)

/-! ## C8: the per-file format check -/

/-- C8 counterexample: the claim says a file is downloaded iff its format
matches some selection entry ignoring case, but with the selection list
`["EPUB"]` a file of format `epub` matches ignoring case (equal lowercasings,
and the list is non-empty) yet the check skips it: the check lowercases only
the file's format and then tests literal membership. -/
theorem file_format_check_counterexample :
    file_format_skipped ["EPUB".data] "epub".data = true ∧
    listToLower "epub".data = listToLower "EPUB".data ∧
    ["EPUB".data] ≠ ([] : List Str) := by decide

/-- C8 amended: for a non-empty selection format list, a file is downloaded
(not skipped) iff the lowercased file format is literally an element of the
list — case-insensitive in the file's format only.  In particular a file of
format `EPUB` matches a selection list containing `epub` (see the witness),
while a selection entry containing an uppercase letter matches no file. -/
theorem file_format_check_amended (formats : List Str) (file_format : Str)
    (h : formats ≠ []) :
    file_format_skipped formats file_format = false ↔
      listToLower file_format ∈ formats := by
  have hne : formats.isEmpty = false := by
    simp [List.isEmpty_iff, h]
  simp [file_format_skipped, hne]

/-- Witness for C8 amended: a file of format `EPUB` passes the check against
the selection list `["epub"]`. -/
theorem file_format_check_amended_witness :
    file_format_skipped ["epub".data] "EPUB".data = false :=
  (file_format_check_amended ["epub".data] "EPUB".data (by decide)).mpr (by decide)

/-! ## C9: batch mode error collection -/

/-- C9: evaluation of `download_bundles` at the failing input.  A line without
a comma — such as a key-only line produced by `list -f key`, the documented
input of bulk-download — panics on the `parts[1]` index (the
`!parts.is_empty()` guard is always true), so the bundle on that line is
never attempted, no subsequent line is processed, the collected errors are
never reported, and the call does not return success; with well-formed
`key,name` lines the failures are collected in order and the call succeeds. -/
theorem download_bundles_panics_on_comma_less_line :
    download_bundles ["somekey".data] (fun _ => Except.ok ()) = ⟨[], [], true⟩ ∧
    download_bundles ["k1,n1".data, "somekey".data, "k3,n3".data]
      (fun _ => Except.ok ()) = ⟨["k1".data], [], true⟩ ∧
    download_bundles ["k1,n1".data, "k2,n2".data, "k3,n3".data]
      (fun i => if i = 1 then Except.error 7 else Except.ok ()) =
      ⟨["k1".data, "k2".data, "k3".data], [("n2".data, 7)], false⟩ := by decide

/-! ## C5: the product-selection filter -/

lemma str_vectors_intersect_iff (f s : List Str) :
    str_vectors_intersect f s = true ↔
      ∃ a ∈ f, ∃ b ∈ s, listToLower a = listToLower b := by
  by_cases h1 : f = []
  · subst h1; simp [str_vectors_intersect]
  · by_cases h2 : s = []
    · subst h2; simp [str_vectors_intersect]
    · have e1 : f.isEmpty = false := by simp [List.isEmpty_iff, h1]
      have e2 : s.isEmpty = false := by simp [List.isEmpty_iff, h2]
      simp [str_vectors_intersect, e1, e2, List.any_eq_true]
      constructor
      · rintro ⟨x, hx, a, ha, heq⟩
        exact ⟨a, ha, x, hx, heq⟩
      · rintro ⟨a, ha, b, hb, heq⟩
        exact ⟨b, hb, a, ha, heq⟩

/-- C5: the selection pipeline equals a single order-preserving filter of the
enumerated catalog by the conjunction of the three tests; the conjunction
holds iff the 1-based position is selected (or no item filter was given), the
size is strictly below the cap (or the cap is 0), and some file format matches
some selection format up to case (or no format filter was given); the result
is a sublist of the catalog (original order). -/
theorem select_filter_spec (products : List Product) (item_numbers : List Nat)
    (max_size : Nat) (formats : List Str) :
    selectProducts products item_numbers max_size formats =
      (products.enum.filter
        (fun ip => keepProduct item_numbers max_size formats ip.1 ip.2)).map
        Prod.snd
    ∧ (∀ i p, keepProduct item_numbers max_size formats i p = true ↔
        ((item_numbers = [] ∨ (i + 1) ∈ item_numbers) ∧
          (max_size = 0 ∨ p.total_size < max_size) ∧
          (formats = [] ∨ ∃ f ∈ p.formats_as_vec, ∃ g ∈ formats,
            listToLower f = listToLower g)))
    ∧ (selectProducts products item_numbers max_size formats).Sublist products := by
  have hmain : selectProducts products item_numbers max_size formats =
      (products.enum.filter
        (fun ip => keepProduct item_numbers max_size formats ip.1 ip.2)).map
        Prod.snd := by
    unfold selectProducts
    rw [List.filter_map, List.filter_map, List.filter_filter, List.filter_filter]
    congr 1
    apply List.filter_congr
    intro ip _
    unfold keepProduct
    cases hA : (item_numbers.isEmpty || item_numbers.contains (ip.1 + 1)) <;>
      cases hB : (max_size == 0 || decide (ip.2.total_size < max_size)) <;>
        cases hC : (formats.isEmpty ||
            str_vectors_intersect ip.2.formats_as_vec formats) <;>
          simp [Function.comp, hA, hB, hC]
  have hkeep : ∀ i p, keepProduct item_numbers max_size formats i p = true ↔
      ((item_numbers = [] ∨ (i + 1) ∈ item_numbers) ∧
        (max_size = 0 ∨ p.total_size < max_size) ∧
        (formats = [] ∨ ∃ f ∈ p.formats_as_vec, ∃ g ∈ formats,
          listToLower f = listToLower g)) := by
    intro i p
    simp [keepProduct, List.isEmpty_iff, str_vectors_intersect_iff, and_assoc]
  have hsub : ((products.enum.filter
      (fun ip => keepProduct item_numbers max_size formats ip.1 ip.2)).map
        Prod.snd).Sublist products := by
    have h1 := List.filter_sublist (p :=
      fun ip => keepProduct item_numbers max_size formats ip.1 ip.2) products.enum
    have h2 := h1.map Prod.snd
    rwa [List.enum_map_snd] at h2
  exact ⟨hmain, hkeep, hmain ▸ hsub⟩

/-! ## C6: failure behavior of range resolution -/

lemma findIdx?_shift (p : Char → Bool) (l : Str) (i : Nat) :
    List.findIdx? p l (i + 1) = (List.findIdx? p l i).map (· + 1) := by
  induction l generalizing i with
  | nil => simp [List.findIdx?_cons]
  | cons c cs ih =>
    rw [List.findIdx?_cons, List.findIdx?_cons]
    by_cases hc : p c
    · simp [hc]
    · simp only [hc, Bool.false_eq_true, if_false]
      exact ih (i + 1)

lemma findIdx?_some_split (v : Str) (idx : Nat)
    (h : List.findIdx? (· == '-') v = some idx) :
    v.take idx = v.takeWhile (fun c => !(c == '-')) ∧
    v.drop (idx + 1) = (v.dropWhile (fun c => !(c == '-'))).tail := by
  induction v generalizing idx with
  | nil => simp [List.findIdx?_cons] at h
  | cons c cs ih =>
    rw [List.findIdx?_cons] at h
    by_cases hc : c = '-'
    · subst hc
      simp only [beq_self_eq_true, if_true, Option.some.injEq] at h
      subst h
      simp [List.takeWhile_cons, List.dropWhile_cons]
    · have hcb : (c == '-') = false := beq_eq_false_iff_ne.mpr hc
      rw [hcb] at h
      simp only [Bool.false_eq_true, if_false] at h
      rw [findIdx?_shift] at h
      cases hcs : List.findIdx? (· == '-') cs with
      | none => rw [hcs] at h; simp at h
      | some j =>
        rw [hcs] at h
        simp only [Option.map_some', Option.some.injEq] at h
        subst h
        obtain ⟨h1, h2⟩ := ih j hcs
        refine ⟨?_, ?_⟩
        · rw [List.take_succ_cons, h1, List.takeWhile_cons, hcb]
          simp
        · rw [List.drop_succ_cons, h2, List.dropWhile_cons, hcb]
          simp

lemma parse_eq_none_iff (v : Str) (max_value : Nat) :
    parse_usize_range v max_value = none ↔ tokenParseFail v = true := by
  unfold parse_usize_range tokenParseFail
  cases hf : List.findIdx? (· == '-') v with
  | none =>
    have hnm : ('-' : Char) ∉ v := by
      intro hmem
      rw [List.findIdx?_eq_none_iff] at hf
      simpa using hf '-' hmem
    simp [hnm, Option.map_eq_none']
  | some idx =>
    have hmem : ('-' : Char) ∈ v := by
      by_contra hnm
      have : List.findIdx? (· == '-') v = none := by
        rw [List.findIdx?_eq_none_iff]
        intro x hx
        exact beq_eq_false_iff_ne.mpr fun h => hnm (h ▸ hx)
      rw [this] at hf
      exact Option.noConfusion hf
    obtain ⟨htake, hdrop⟩ := findIdx?_some_split v idx hf
    dsimp only
    rw [htake, hdrop]
    simp only [hmem, if_true]
    by_cases hl : v.takeWhile (fun c => !(c == '-')) = []
    · rw [hl]
      simp only [ne_eq, not_true_eq_false, if_false, List.isEmpty_nil]
      by_cases hr : (v.dropWhile (fun c => !(c == '-'))).tail = []
      · rw [hr]
        simp
      · have hrE : ((v.dropWhile (fun c => !(c == '-'))).tail).isEmpty = false := by
          simp [List.isEmpty_iff, hr]
        cases hpr : rustParseUsize ((v.dropWhile (fun c => !(c == '-'))).tail) with
        | none => simp [hr, hrE, hpr]
        | some B => simp [hr, hrE, hpr]
    · have hlE : (v.takeWhile (fun c => !(c == '-'))).isEmpty = false := by
        simp [List.isEmpty_iff, hl]
      cases hpl : rustParseUsize (v.takeWhile (fun c => !(c == '-'))) with
      | none => simp [hl, hlE, hpl]
      | some A =>
        simp only [ne_eq, hl, not_false_eq_true, if_true, hpl, hlE,
          Bool.not_false, Option.isNone_some, Bool.and_false, Bool.false_or]
        by_cases hr : (v.dropWhile (fun c => !(c == '-'))).tail = []
        · rw [hr]
          simp
        · have hrE : ((v.dropWhile (fun c => !(c == '-'))).tail).isEmpty = false := by
            simp [List.isEmpty_iff, hr]
          cases hpr : rustParseUsize ((v.dropWhile (fun c => !(c == '-'))).tail) with
          | none => simp [hr, hrE, hpr]
          | some B => simp [hr, hrE, hpr]

/-- C6: resolution fails iff some token fails to parse — a side of the first
dash that is present but not a valid integer, or a dashless token that is not
a valid integer; in that case the result is exactly a `Generic`-style error
whose message comma-joins the quoted offending raw tokens in input order (no
partial result), and otherwise some ordinary result is returned. -/
theorem union_error_spec (values : List Str) (max_value : Nat) :
    ((∃ v ∈ values, parse_usize_range v max_value = none) ↔
      union_usize_ranges values max_value = Except.error
        (List.intercalate [',', ' ']
          ((values.filter
            (fun v => (parse_usize_range v max_value).isNone)).map quoteTok)))
    ∧ ((∀ v ∈ values, parse_usize_range v max_value ≠ none) →
        ∃ out, union_usize_ranges values max_value = Except.ok out)
    ∧ (∀ v, parse_usize_range v max_value = none ↔ tokenParseFail v = true) := by
  refine ⟨?_, ?_, fun v => parse_eq_none_iff v max_value⟩
  · by_cases hinv : values.filter
        (fun v => (parse_usize_range v max_value).isNone) = []
    · have hno : ¬ ∃ v ∈ values, parse_usize_range v max_value = none := by
        rintro ⟨v, hv, hfail⟩
        rw [List.filter_eq_nil_iff] at hinv
        exact hinv v hv (by simp [hfail])
      simp only [hno, false_iff]
      intro hcontra
      rw [union_usize_ranges, if_neg (by simp [hinv])] at hcontra
      exact Except.noConfusion hcontra
    · have hyes : ∃ v ∈ values, parse_usize_range v max_value = none := by
        obtain ⟨v, hv⟩ := List.exists_mem_of_ne_nil _ hinv
        rw [List.mem_filter] at hv
        exact ⟨v, hv.1, by simpa using hv.2⟩
      simp only [hyes, true_iff]
      rw [union_usize_ranges, if_pos (by simp [hinv])]
  · intro hall
    have hinv : values.filter
        (fun v => (parse_usize_range v max_value).isNone) = [] := by
      rw [List.filter_eq_nil_iff]
      intro a ha
      simp [Option.isNone_iff_eq_none, hall a ha]
    exact ⟨_, by rw [union_usize_ranges, if_neg (by simp [hinv])]⟩

/-- Witness for C6: resolving `["abc", "5"]` fails with exactly the quoted
offending token `abc` in the message, and `abc` satisfies the token-failure
description. -/
theorem union_error_spec_witness :
    union_usize_ranges ["abc".data, "5".data] 50 =
      Except.error (List.intercalate [',', ' ']
        ((["abc".data, "5".data].filter
          (fun v => (parse_usize_range v 50).isNone)).map quoteTok)) ∧
    tokenParseFail "abc".data = true :=
  ⟨(union_error_spec ["abc".data, "5".data] 50).1.mp
      ⟨"abc".data, by decide, by decide⟩,
    ((union_error_spec ["abc".data, "5".data] 50).2.2 "abc".data).mp (by decide)⟩

/-! ## C3 and C4: shape of resolved ranges -/

lemma mem_range_incl (A B i : Nat) :
    i ∈ List.range' A (B + 1 - A) ↔ A ≤ i ∧ i ≤ B := by
  rw [List.mem_range'_1]
  omega

lemma parse_bare_token (v : Str) (max_value : Nat) (hv : ('-' : Char) ∉ v) :
    parse_usize_range v max_value = (rustParseUsize v).map (fun n => [n]) := by
  have hfind : List.findIdx? (· == '-') v = none :=
    List.findIdx?_eq_none_iff.mpr
      (fun x hx => beq_eq_false_iff_ne.mpr fun h => hv (h ▸ hx))
  unfold parse_usize_range
  rw [hfind]

lemma parse_open_start (b : Str) (B max_value : Nat)
    (hB : rustParseUsize b = some B) :
    parse_usize_range ('-' :: b) max_value =
      some (List.range' 1 ((B + 1) % USIZE_BOUND - 1)) := by
  have hfind : List.findIdx? (· == '-') ('-' :: b) = some 0 := by
    simp [List.findIdx?_cons]
  have hbne : b ≠ [] := rustParseUsize_ne_nil hB
  unfold parse_usize_range
  rw [hfind]
  simp [hbne, hB]

lemma parse_open_end (a : Str) (A max_value : Nat)
    (ha : ('-' : Char) ∉ a) (hA : rustParseUsize a = some A) :
    parse_usize_range (a ++ ['-']) max_value =
      some (List.range' A ((max_value + 1) % USIZE_BOUND - A)) := by
  have hfind := findIdx?_dash_append a [] 0 ha
  rw [Nat.zero_add] at hfind
  have hane : a ≠ [] := rustParseUsize_ne_nil hA
  have hdrop := drop_length_succ_append a [] '-'
  unfold parse_usize_range
  rw [show a ++ ['-'] = a ++ '-' :: [] from rfl, hfind]
  simp only [List.take_left, hdrop, hane, ne_eq, not_false_eq_true, if_true,
    not_true_eq_false, if_false, hA]

lemma mem_fold_parsed (values : List Str) (max_value : Nat) (acc : List Nat)
    (i : Nat) :
    (i ∈ values.foldl
        (fun acc v => acc ++ (parse_usize_range v max_value).getD []) acc) ↔
      i ∈ acc ∨ ∃ v ∈ values, ∃ l,
        parse_usize_range v max_value = some l ∧ i ∈ l := by
  induction values generalizing acc with
  | nil => simp
  | cons v vs ih =>
    have hgd : (i ∈ (parse_usize_range v max_value).getD []) ↔
        ∃ l, parse_usize_range v max_value = some l ∧ i ∈ l := by
      cases hp : parse_usize_range v max_value <;> simp [hp]
    rw [List.foldl_cons, ih, List.mem_append, hgd]
    simp only [List.mem_cons]
    constructor
    · rintro ((h | ⟨l, hl, hil⟩) | ⟨w, hw, l, hl, hil⟩)
      · exact Or.inl h
      · exact Or.inr ⟨v, Or.inl rfl, l, hl, hil⟩
      · exact Or.inr ⟨w, Or.inr hw, l, hl, hil⟩
    · rintro (h | ⟨w, (rfl | hw), l, hl, hil⟩)
      · exact Or.inl (Or.inl h)
      · exact Or.inl (Or.inr ⟨l, hl, hil⟩)
      · exact Or.inr ⟨w, hw, l, hl, hil⟩

lemma union_ok_inv (values : List Str) (max_value : Nat) (out : List Nat)
    (h : union_usize_ranges values max_value = Except.ok out) :
    out = ((values.foldl
      (fun acc v => acc ++ (parse_usize_range v max_value).getD [])
        []).insertionSort (· ≤ ·)).dedup := by
  rw [union_usize_ranges] at h
  by_cases hinv : values.filter
      (fun v => (parse_usize_range v max_value).isNone) = []
  · rw [if_neg (by simp [hinv])] at h
    exact (Except.ok.inj h).symm
  · rw [if_pos (by simp [hinv])] at h
    exact absurd h (by simp)

lemma sortDedup_sorted (l : List Nat) :
    ((l.insertionSort (· ≤ ·)).dedup).Sorted (· < ·) := by
  have hs : (l.insertionSort (· ≤ ·)).Sorted (· ≤ ·) :=
    List.sorted_insertionSort _ _
  have hle : ((l.insertionSort (· ≤ ·)).dedup).Sorted (· ≤ ·) :=
    List.Pairwise.sublist (List.dedup_sublist _) hs
  exact hle.lt_of_le (List.nodup_dedup _)

lemma sortDedup_mem (l : List Nat) (i : Nat) :
    (i ∈ (l.insertionSort (· ≤ ·)).dedup) ↔ i ∈ l := by
  rw [List.mem_dedup]
  exact (List.perm_insertionSort _ l).mem_iff

/-- C3 counterexample: the token `5-18446744073709551615` is a bounded token
whose two sides are valid integers (`A = 5`, `B = usize::MAX`), yet range
resolution does not produce the inclusive interval `[A, B]`: the release-mode
wraparound of `range_right + 1` makes the collected range empty, so `5`,
although inside `[A, B]`, is absent and the resolved set is empty. -/
theorem range_resolution_overflow_counterexample :
    rustParseUsize "5".data = some 5 ∧
    rustParseUsize "18446744073709551615".data = some 18446744073709551615 ∧
    parse_usize_range "5-18446744073709551615".data 50 = some [] ∧
    union_usize_ranges ["5-18446744073709551615".data] 50 = Except.ok [] ∧
    ((5 : Nat) ≤ 5 ∧ (5 : Nat) ≤ 18446744073709551615) ∧
    (5 : Nat) ∉ ([] : List Nat) := by decide

/-- C3 amended: a bare integer token `N` resolves to `{N}`; a bounded token
`A-B` to the inclusive interval `[A, B]` provided `B < usize::MAX` (at
`B = usize::MAX` the end computation wraps and the interval collapses to the
empty set); an open-start token `-B` to `[1, B]` under the same proviso; an
open-end token `A-` to `[A, max_value]` provided `max_value < usize::MAX`;
and a successful resolution returns exactly the union of the per-token sets,
sorted strictly ascending (duplicates removed). -/
theorem range_resolution_amended (max_value : Nat) :
    (∀ v N, ('-' : Char) ∉ v → rustParseUsize v = some N →
      parse_usize_range v max_value = some [N])
    ∧ (∀ a b A B, ('-' : Char) ∉ a → rustParseUsize a = some A →
        rustParseUsize b = some B → B + 1 < USIZE_BOUND →
        parse_usize_range (a ++ '-' :: b) max_value =
          some (List.range' A (B + 1 - A)) ∧
        (∀ i, i ∈ List.range' A (B + 1 - A) ↔ A ≤ i ∧ i ≤ B))
    ∧ (∀ b B, rustParseUsize b = some B → B + 1 < USIZE_BOUND →
        parse_usize_range ('-' :: b) max_value =
          some (List.range' 1 (B + 1 - 1)) ∧
        (∀ i, i ∈ List.range' 1 (B + 1 - 1) ↔ 1 ≤ i ∧ i ≤ B))
    ∧ (∀ a A, ('-' : Char) ∉ a → rustParseUsize a = some A →
        max_value + 1 < USIZE_BOUND →
        parse_usize_range (a ++ ['-']) max_value =
          some (List.range' A (max_value + 1 - A)) ∧
        (∀ i, i ∈ List.range' A (max_value + 1 - A) ↔ A ≤ i ∧ i ≤ max_value))
    ∧ (∀ values out, union_usize_ranges values max_value = Except.ok out →
        out.Sorted (· < ·) ∧
        (∀ i, (i ∈ out) ↔ ∃ v ∈ values, ∃ l,
          parse_usize_range v max_value = some l ∧ i ∈ l)) := by
  refine ⟨?_, ?_, ?_, ?_, ?_⟩
  · intro v N hv hN
    rw [parse_bare_token v max_value hv, hN]
    rfl
  · intro a b A B ha hA hB hB1
    refine ⟨?_, fun i => mem_range_incl A B i⟩
    rw [parse_bounded_token a b A B max_value ha hA hB, Nat.mod_eq_of_lt hB1]
  · intro b B hB hB1
    refine ⟨?_, fun i => mem_range_incl 1 B i⟩
    rw [parse_open_start b B max_value hB, Nat.mod_eq_of_lt hB1]
  · intro a A ha hA hm
    refine ⟨?_, fun i => mem_range_incl A max_value i⟩
    rw [parse_open_end a A max_value ha hA, Nat.mod_eq_of_lt hm]
  · intro values out hok
    have hout := union_ok_inv values max_value out hok
    subst hout
    refine ⟨sortDedup_sorted _, fun i => ?_⟩
    rw [sortDedup_mem, mem_fold_parsed]
    simp

/-- Witness for C3 amended at the spec's own examples (with `max_value = 50`
for the single tokens and the sortedness of a resolved union). -/
theorem range_resolution_amended_witness :
    parse_usize_range "42".data 50 = some [42] ∧
    parse_usize_range "5-10".data 50 = some (List.range' 5 6) ∧
    parse_usize_range "-5".data 50 = some (List.range' 1 5) ∧
    parse_usize_range "45-".data 50 = some (List.range' 45 6) ∧
    List.Sorted (· < ·) [7, 8, 9, 10] := by
  refine ⟨?_, ?_, ?_, ?_, ?_⟩
  · exact (range_resolution_amended 50).1 "42".data 42 (by decide) (by decide)
  · exact ((range_resolution_amended 50).2.1 "5".data "10".data 5 10
      (by decide) (by decide) (by decide) (by decide)).1
  · exact ((range_resolution_amended 50).2.2.1 "5".data 5
      (by decide) (by decide)).1
  · exact ((range_resolution_amended 50).2.2.2.1 "45".data 45
      (by decide) (by decide) (by decide)).1
  · exact ((range_resolution_amended 10).2.2.2.2 ["8".data, "7-".data]
      [7, 8, 9, 10] (by decide)).1

lemma parse_bounds_of_tokenBoundsOk (v : Str) (max_value : Nat) (l : List Nat)
    (hp : parse_usize_range v max_value = some l)
    (hb : tokenBoundsOk v max_value = true) :
    ∀ i ∈ l, 1 ≤ i ∧ i ≤ max_value := by
  intro i hi
  unfold parse_usize_range at hp
  unfold tokenBoundsOk at hb
  cases hf : List.findIdx? (· == '-') v with
  | none =>
    rw [hf] at hp hb
    cases hN : rustParseUsize v with
    | none => rw [hN] at hp; exact absurd hp (by simp)
    | some N =>
      rw [hN] at hp hb
      simp only [Option.map_some', Option.some.injEq] at hp
      subst hp
      simp only [boundOkB, Bool.and_eq_true, decide_eq_true_eq] at hb
      simp only [List.mem_singleton] at hi
      subst hi
      exact hb
  | some idx =>
    rw [hf] at hp hb
    dsimp only at hp
    rw [Bool.and_eq_true] at hb
    obtain ⟨hbl, hbr⟩ := hb
    rcases hLeft : (if v.take idx ≠ [] then rustParseUsize (v.take idx)
        else some 1) with _ | rl
    · rw [hLeft] at hp
      exact absurd hp (by simp)
    · have h1rl : 1 ≤ rl := by
        by_cases hlnil : v.take idx = []
        · simp only [hlnil, ne_eq, not_true_eq_false, if_false] at hLeft
          exact le_of_eq (Option.some.inj hLeft)
        · simp only [ne_eq, hlnil, not_false_eq_true, if_true] at hLeft
          rw [hLeft] at hbl
          simp only [boundOkB, Bool.and_eq_true, decide_eq_true_eq] at hbl
          exact hbl.1
      rw [hLeft] at hp
      dsimp only at hp
      rcases hRight : (if v.drop (idx + 1) ≠ [] then
          rustParseUsize (v.drop (idx + 1)) else some max_value) with _ | rr
      · rw [hRight] at hp
        exact absurd hp (by simp)
      · have hrrle : rr ≤ max_value := by
          by_cases hrnil : v.drop (idx + 1) = []
          · simp only [hrnil, ne_eq, not_true_eq_false, if_false] at hRight
            exact le_of_eq (Option.some.inj hRight).symm
          · simp only [ne_eq, hrnil, not_false_eq_true, if_true] at hRight
            rw [hRight] at hbr
            simp only [boundOkB, Bool.and_eq_true, decide_eq_true_eq] at hbr
            exact hbr.2
        rw [hRight] at hp
        simp only [Option.some.injEq] at hp
        subst hp
        rw [List.mem_range'_1] at hi
        have hmle : (rr + 1) % USIZE_BOUND ≤ rr + 1 := Nat.mod_le _ _
        omega

/-- C4 counterexample: range resolution happily returns index `0` for the
token `0` and index `100` for the token `100` against a catalog of size 50 —
explicit values are passed through with no clamping to `[1, max_value]`. -/
theorem range_resolver_bounds_counterexample :
    union_usize_ranges ["0".data] 50 = Except.ok [0] ∧
    union_usize_ranges ["100".data] 50 = Except.ok [100] ∧
    ¬ (∀ i ∈ [(0 : Nat)], 1 ≤ i) ∧ ¬ (∀ i ∈ [(100 : Nat)], i ≤ 50) := by decide

/-- C4 amended: only the defaults of open-ended ranges are guaranteed to be
`1` and `max_value`; when additionally every explicitly written bound of
every token lies within `[1, max_value]`, every index of a successful range
resolution lies within `[1, max_value]`. -/
theorem range_resolver_bounds_amended (values : List Str) (max_value : Nat)
    (out : List Nat)
    (hok : union_usize_ranges values max_value = Except.ok out)
    (hb : ∀ v ∈ values, tokenBoundsOk v max_value = true) :
    ∀ i ∈ out, 1 ≤ i ∧ i ≤ max_value := by
  intro i hi
  have hout := union_ok_inv values max_value out hok
  subst hout
  rw [sortDedup_mem, mem_fold_parsed] at hi
  simp only [List.not_mem_nil, false_or] at hi
  obtain ⟨v, hv, l, hl, hil⟩ := hi
  exact parse_bounds_of_tokenBoundsOk v max_value l hl (hb v hv) i hil

/-- Witness for C4 amended: resolving `["-3", "7-"]` against a catalog of 10
succeeds with in-range tokens, and the sample index 7 of the result is within
`[1, 10]`. -/
theorem range_resolver_bounds_amended_witness :
    union_usize_ranges ["-3".data, "7-".data] 10 =
      Except.ok [1, 2, 3, 7, 8, 9, 10] ∧
    (1 ≤ (7 : Nat) ∧ (7 : Nat) ≤ 10) :=
  ⟨by decide,
    range_resolver_bounds_amended ["-3".data, "7-".data] 10
      [1, 2, 3, 7, 8, 9, 10] (by decide) (by decide) 7 (by decide)⟩

/-! ## C7: filename extraction from a URL -/

lemma splitOnChar_ne_nil (sep : Char) (l : Str) : splitOnChar sep l ≠ [] := by
  cases l with
  | nil => simp [splitOnChar]
  | cons d ds =>
    unfold splitOnChar
    by_cases hd : d = sep
    · rw [if_pos hd]; simp
    · rw [if_neg hd]
      cases splitOnChar sep ds <;> simp

lemma mem_splitOnChar (sep : Char) (l : Str) (seg : Str)
    (hseg : seg ∈ splitOnChar sep l) :
    ∀ c ∈ seg, c ∈ l ∧ c ≠ sep := by
  induction l generalizing seg with
  | nil =>
    simp only [splitOnChar, List.mem_singleton] at hseg
    subst hseg
    intro c hc
    exact absurd hc (List.not_mem_nil c)
  | cons d ds ih =>
    unfold splitOnChar at hseg
    by_cases hd : d = sep
    · rw [if_pos hd] at hseg
      rcases List.mem_cons.mp hseg with rfl | hsegs
      · intro c hc
        exact absurd hc (List.not_mem_nil c)
      · intro c hc
        obtain ⟨h1, h2⟩ := ih seg hsegs c hc
        exact ⟨List.mem_cons_of_mem _ h1, h2⟩
    · rw [if_neg hd] at hseg
      cases hsplit : splitOnChar sep ds with
      | nil => exact absurd hsplit (splitOnChar_ne_nil sep ds)
      | cons t ts =>
        rw [hsplit] at hseg
        rcases List.mem_cons.mp hseg with rfl | hsegs
        · intro c hc
          rcases List.mem_cons.mp hc with rfl | hcs
          · exact ⟨List.mem_cons_self _ _, hd⟩
          · have ht : t ∈ splitOnChar sep ds := by
              rw [hsplit]; exact List.mem_cons_self _ _
            obtain ⟨h1, h2⟩ := ih t ht c hcs
            exact ⟨List.mem_cons_of_mem _ h1, h2⟩
        · intro c hc
          have hsegds : seg ∈ splitOnChar sep ds := by
            rw [hsplit]; exact List.mem_cons_of_mem _ hsegs
          obtain ⟨h1, h2⟩ := ih seg hsegds c hc
          exact ⟨List.mem_cons_of_mem _ h1, h2⟩

lemma urlPathOf_chars (x : Str) (c : Char) (hc : c ∈ urlPathOf x) :
    c ∈ x ∧ notPathEndChar c = true := by
  unfold urlPathOf at hc
  by_cases hh : ((x.dropWhile notAuthEndChar).takeWhile notPathEndChar).headD ' ' = '/'
  · rw [if_pos hh] at hc
    have hmem : c ∈ (x.dropWhile notAuthEndChar).takeWhile notPathEndChar :=
      List.Sublist.mem hc (List.tail_sublist _)
    refine ⟨?_, List.mem_takeWhile_imp hmem⟩
    exact List.Sublist.mem
      (List.Sublist.mem hmem (List.takeWhile_sublist _))
      (List.dropWhile_sublist _)
  · rw [if_neg hh] at hc
    exact absurd hc (List.not_mem_nil c)

lemma parseUrl_segments_spec (s : Str) (u : Url) (segs : List Str)
    (hp : parseUrl s = some u) (hs : u.pathSegments = some segs) :
    segs ≠ [] ∧ ∀ seg ∈ segs, ∀ c ∈ seg,
      c ∈ s ∧ c ≠ '/' ∧ c ≠ '?' ∧ c ≠ '#' := by
  unfold parseUrl at hp
  by_cases h1 : s.dropWhile (fun c => !(c == ':')) = []
  · rw [if_pos h1] at hp
    exact absurd hp (by simp)
  · rw [if_neg h1] at hp
    by_cases h2 : s.takeWhile (fun c => !(c == ':')) = []
    · rw [if_pos h2] at hp
      exact absurd hp (by simp)
    · rw [if_neg h2] at hp
      by_cases h3 : (!(isSchemeStartChar
          ((s.takeWhile (fun c => !(c == ':'))).headD 'a') &&
          (s.takeWhile (fun c => !(c == ':'))).all isSchemeChar)) = true
      · rw [if_pos h3] at hp
        exact absurd hp (by simp)
      · rw [if_neg h3] at hp
        by_cases h4 : (s.dropWhile (fun c => !(c == ':'))).tail.take 2 =
            ['/', '/']
        · rw [if_pos h4] at hp
          by_cases h5 : urlAuthorityOf
              ((s.dropWhile (fun c => !(c == ':'))).tail.drop 2) = []
          · rw [if_pos h5] at hp
            exact absurd hp (by simp)
          · rw [if_neg h5] at hp
            have hu := Option.some.inj hp
            subst hu
            simp only at hs
            have hsegs := Option.some.inj hs
            subst hsegs
            refine ⟨splitOnChar_ne_nil _ _, ?_⟩
            intro seg hseg c hc
            obtain ⟨hcp, hslash⟩ := mem_splitOnChar '/' _ seg hseg c hc
            obtain ⟨hcx, hpe⟩ := urlPathOf_chars _ c hcp
            have hc1 : c ∈ (s.dropWhile (fun c => !(c == ':'))).tail :=
              List.Sublist.mem hcx (List.drop_sublist _ _)
            have hc2 : c ∈ s.dropWhile (fun c => !(c == ':')) :=
              List.Sublist.mem hc1 (List.tail_sublist _)
            have hcs : c ∈ s :=
              List.Sublist.mem hc2 (List.dropWhile_sublist _)
            unfold notPathEndChar at hpe
            simp only [Bool.not_eq_true', Bool.or_eq_false_iff,
              beq_eq_false_iff_ne, ne_eq] at hpe
            exact ⟨hcs, hslash, hpe.1, hpe.2⟩
        · rw [if_neg h4] at hp
          have hu := Option.some.inj hp
          subst hu
          simp at hs

/-- C7: `extract_filename_from_url` returns `some f` exactly when the URL
parses as a hierarchical URL whose trailing path segment is the non-empty
`f`; it returns `none` exactly when the URL is malformed, has no path
segments (cannot-be-a-base), or the trailing segment is empty; and a returned
filename is verbatim URL material: each of its characters occurs in the URL
and is none of `/`, `?`, `#` (in particular the query is excluded). -/
theorem extract_filename_spec (s : Str) :
    (∀ f, extract_filename_from_url s = some f ↔
      ((∃ u, parseUrl s = some u ∧ ∃ segs, u.pathSegments = some segs ∧
        segs.getLast? = some f) ∧ f ≠ []))
    ∧ (extract_filename_from_url s = none ↔
      (parseUrl s = none ∨ ∃ u, parseUrl s = some u ∧
        (u.pathSegments = none ∨ ∃ segs, u.pathSegments = some segs ∧
          segs.getLast? = some [])))
    ∧ (∀ f c, extract_filename_from_url s = some f → c ∈ f →
        c ∈ s ∧ c ≠ '/' ∧ c ≠ '?' ∧ c ≠ '#') := by
  cases hp : parseUrl s with
  | none =>
    have hval : extract_filename_from_url s = none := by
      simp [extract_filename_from_url, hp]
    refine ⟨?_, ?_, ?_⟩
    · intro f
      rw [hval]
      constructor
      · intro h
        exact absurd h (by simp)
      · rintro ⟨⟨u', hp', _⟩, _⟩
        exact absurd hp' (by simp)
    · rw [hval]
      constructor
      · intro _
        exact Or.inl rfl
      · intro _
        rfl
    · intro f c hf
      rw [hval] at hf
      exact absurd hf (by simp)
  | some u =>
    cases hseg : u.pathSegments with
    | none =>
      have hval : extract_filename_from_url s = none := by
        simp [extract_filename_from_url, hp, hseg]
      refine ⟨?_, ?_, ?_⟩
      · intro f
        rw [hval]
        constructor
        · intro h
          exact absurd h (by simp)
        · rintro ⟨⟨u', hp', segs', hseg', _⟩, _⟩
          cases Option.some.inj hp'
          rw [hseg] at hseg'
          exact absurd hseg' (by simp)
      · rw [hval]
        constructor
        · intro _
          exact Or.inr ⟨u, rfl, Or.inl hseg⟩
        · intro _
          rfl
      · intro f c hf
        rw [hval] at hf
        exact absurd hf (by simp)
    | some segs =>
      have hne : segs ≠ [] := (parseUrl_segments_spec s u segs hp hseg).1
      have hchars := (parseUrl_segments_spec s u segs hp hseg).2
      cases hlast : segs.getLast? with
      | none => exact absurd (List.getLast?_eq_none_iff.mp hlast) hne
      | some last =>
        by_cases hle : last = []
        · subst hle
          have hval : extract_filename_from_url s = none := by
            simp [extract_filename_from_url, hp, hseg, hlast]
          refine ⟨?_, ?_, ?_⟩
          · intro f
            rw [hval]
            constructor
            · intro h
              exact absurd h (by simp)
            · rintro ⟨⟨u', hp', segs', hseg', hlast'⟩, hf⟩
              cases Option.some.inj hp'
              rw [hseg] at hseg'
              cases Option.some.inj hseg'
              rw [hlast] at hlast'
              exact absurd (Option.some.inj hlast').symm hf
          · rw [hval]
            constructor
            · intro _
              exact Or.inr ⟨u, rfl, Or.inr ⟨segs, hseg, hlast⟩⟩
            · intro _
              rfl
          · intro f c hf
            rw [hval] at hf
            exact absurd hf (by simp)
        · have hval : extract_filename_from_url s = some last := by
            rw [extract_filename_from_url, hp]
            dsimp only
            rw [hseg]
            dsimp only
            rw [hlast]
            cases last with
            | nil => exact absurd rfl hle
            | cons a as => rfl
          have hlmem : last ∈ segs := by
            obtain ⟨ys, hys⟩ := List.getLast?_eq_some_iff.mp hlast
            rw [hys]
            simp
          refine ⟨?_, ?_, ?_⟩
          · intro f
            rw [hval]
            constructor
            · intro h
              cases Option.some.inj h
              exact ⟨⟨u, rfl, segs, hseg, hlast⟩, hle⟩
            · rintro ⟨⟨u', hp', segs', hseg', hlast'⟩, hf⟩
              cases Option.some.inj hp'
              rw [hseg] at hseg'
              cases Option.some.inj hseg'
              rw [hlast] at hlast'
              exact congrArg some (Option.some.inj hlast')
          · rw [hval]
            constructor
            · intro h
              exact absurd h (by simp)
            · rintro (h | ⟨u', hp', h⟩)
              · exact absurd h (by simp)
              · cases Option.some.inj hp'
                rcases h with h | ⟨segs', hseg', hlast'⟩
                · rw [hseg] at h
                  exact absurd h (by simp)
                · rw [hseg] at hseg'
                  cases Option.some.inj hseg'
                  rw [hlast] at hlast'
                  exact absurd (Option.some.inj hlast') hle
          · intro f c hf hc
            rw [hval] at hf
            cases Option.some.inj hf
            exact hchars last hlmem c hc

/-- Witness for C7 at the spec's examples: the filename of
`https://dl.example.com/book.epub?t=1` is `book.epub`, whose characters all
occur in the URL and exclude the separators, while `https://example.com/` has
an empty trailing segment and yields nothing. -/
theorem extract_filename_spec_witness :
    extract_filename_from_url "https://dl.example.com/book.epub?t=1".data =
      some "book.epub".data ∧
    ('b' ∈ "https://dl.example.com/book.epub?t=1".data ∧
      'b' ≠ '/' ∧ 'b' ≠ '?' ∧ 'b' ≠ '#') ∧
    extract_filename_from_url "https://example.com/".data = none :=
  ⟨by decide,
    (extract_filename_spec "https://dl.example.com/book.epub?t=1".data).2.2
      "book.epub".data 'b' (by decide) (by decide),
    by decide⟩

end HumbleCli
